import Mathlib

/-!
Shallow embedding of the rammer spam classifier core, translated from
src/bag_of_words.rs and src/hs_model.rs.

Modelling conventions:

* Rust u32 counts (the Count alias) are modelled as Nat.  Training counts of
  realistic corpora stay far below 2 ^ 32, and addition modulo 2 ^ 32 is in
  any case commutative and associative, so none of the statements below
  depends on wraparound.
* A Rust HashMap from String to Count is modelled as an association list of
  key and count pairs.  A genuine HashMap has pairwise distinct keys; this is
  captured by the predicate BagOfWords.WF.  Equality of Rust HashMaps is
  key by key equality of lookups, stated here through find_count.
* Rust f64 arithmetic is idealised as exact arithmetic: word frequencies,
  which the code computes as quotients of counts, live in Rat, and the
  log-odds score lives in Real.  The degenerate IEEE values of f64 are
  modelled separately by the RFloat type, which represents an f64 as either
  a finite real, an infinity, or a non-numeric value, and is used to analyse
  the log-odds term at the probability extremes.
* Unicode word segmentation (split_word_bounds of the unicode-segmentation
  crate), uppercasing and trimming are external collaborators of the core.
  The embedding is parametric in the three functions segW, upperU and trimW;
  every theorem holds for an arbitrary choice of the three.  Witnesses use
  the concrete executable instances segC, upperC and trimC below, which
  agree with the real collaborators on the plain ASCII inputs they are
  applied to.
-/

/-- Count is the u32 count type of the source, modelled as Nat. -/
abbrev Count := Nat

/-- Pointwise merge of two optional counts: the value a key maps to after a
merge, given the value associated to it in each operand. -/
def addOpt : Option Count → Option Count → Option Count
  | some u, some v => some (u + v)
  | some u, none => some u
  | none, some v => some v
  | none, none => none

/-- Lookup of a key in an association list, returning the count of the first
entry whose key matches.  This models HashMap get. -/
def find_count : List (String × Count) → String → Option Count
  | [], _ => none
  | (k', v) :: t, k => if k' = k then some v else find_count t k

/-- The entry api call in combine and in the From and str instance:
entry(k).and_modify(add v).or_insert(v) adds v to the count of k when the key
is present and inserts the pair (k, v) otherwise. -/
def upsert : List (String × Count) → String → Count → List (String × Count)
  | [], k, v => [(k, v)]
  | (k', v') :: t, k, v =>
      if k' = k then (k', v' + v) :: t else (k', v') :: upsert t k v

/-- BagOfWords from src/bag_of_words.rs: a frequency map of words.  The pub
field bow is the HashMap from String to Count. -/
structure BagOfWords where
  bow : List (String × Count)

/-- BagOfWords::new returns a bag with an empty frequency map. -/
def BagOfWords.new : BagOfWords := ⟨[]⟩

/-- Key lookup in a bag, modelling self.bow.get. -/
def BagOfWords.find (b : BagOfWords) (k : String) : Option Count :=
  find_count b.bow k

/-- A bag is well formed when its association list has pairwise distinct
keys, exactly the states a Rust HashMap can be in. -/
def BagOfWords.WF (b : BagOfWords) : Prop := (b.bow.map Prod.fst).Nodup

/-- The loop body of combine: fold the entries of the second list into the
first with upsert. -/
def combine_list (a l : List (String × Count)) : List (String × Count) :=
  l.foldl (fun acc kv => upsert acc kv.1 kv.2) a

/-- BagOfWords::combine: for every key of other, add its count into self,
inserting when absent. -/
def BagOfWords.combine (a other : BagOfWords) : BagOfWords :=
  ⟨combine_list a.bow other.bow⟩

/-- BagOfWords::total_word_count: the sum of all counts in the bag. -/
def BagOfWords.total_word_count (b : BagOfWords) : Count :=
  (b.bow.map Prod.snd).sum

/-- BagOfWords::word_frequency.  The input is segmented with the same word
boundary rule as construction and segments that are empty after trimming are
discarded; the source returns None unless exactly one segment remains
(the wildcard branch below covers its length zero and length above one early
return), then looks up the uppercased segment and divides its count by the
total count. -/
def BagOfWords.word_frequency (segW : String → List String)
    (upperU : String → String) (trimW : String → String)
    (b : BagOfWords) (word : String) : Option ℚ :=
  match (segW word).filter (fun s => !((trimW s).isEmpty)) with
  | [w] =>
      (find_count b.bow (upperU w)).map
        (fun (v : Count) => (v : ℚ) / (BagOfWords.total_word_count b : ℚ))
  | _ => none

/-- The loop of the From and str instance: insert each word of the list with
count one, uppercasing it first. -/
def insert_words (upperU : String → String) (l : List String)
    (acc : List (String × Count)) : List (String × Count) :=
  l.foldl (fun a w => upsert a (upperU w) 1) acc

/-- The From and str instance for BagOfWords: segment the text, discard the
segments that are empty after trimming, and count the uppercased segments
starting from the empty map. -/
def BagOfWords.from_text (segW : String → List String)
    (upperU : String → String) (trimW : String → String)
    (s : String) : BagOfWords :=
  ⟨insert_words upperU ((segW s).filter (fun w => !((trimW w).isEmpty))) []⟩

/-- The FromIterator instance for BagOfWords: start from the empty bag and
combine every bag of the sequence in order, a sequential left fold. -/
def BagOfWords.from_iter (l : List BagOfWords) : BagOfWords :=
  l.foldl BagOfWords.combine BagOfWords.new

/-- The shape of a rayon tree reduction as performed by the
FromParallelIterator instance: leaves are the input bags, inner nodes combine
the results of their subtrees, and empty parts reduce to the identity
closure, which returns BagOfWords::new. -/
inductive BowTree where
  | empty : BowTree
  | leaf (b : BagOfWords) : BowTree
  | node (l r : BowTree) : BowTree

/-- The input bags of a tree reduction, in left to right order. -/
def leavesOf : BowTree → List BagOfWords
  | BowTree.empty => []
  | BowTree.leaf b => [b]
  | BowTree.node l r => leavesOf l ++ leavesOf r

/-- Evaluation of a rayon style tree reduction with identity BagOfWords::new
and operation combine. -/
def reduce_tree : BowTree → BagOfWords
  | BowTree.empty => BagOfWords.new
  | BowTree.leaf b => b
  | BowTree.node l r => (reduce_tree l).combine (reduce_tree r)

/-- Merge of a list of optional counts, the value a key ends with after all
bags of a collection contributed their count for it. -/
def mergeAll (xs : List (Option Count)) : Option Count :=
  xs.foldr addOpt none

/-- Count positivity invariant of a bag: every present key has count at
least one. -/
def counts_pos (b : BagOfWords) : Prop :=
  ∀ k v, b.find k = some v → 1 ≤ v

/-- Full key invariant of a bag: every present key has count at least one
and is the uppercased form of a segment that is not empty after trimming. -/
def entries_valid (upperU : String → String) (trimW : String → String)
    (b : BagOfWords) : Prop :=
  ∀ k v, b.find k = some v →
    1 ≤ v ∧ ∃ w, (trimW w).isEmpty = false ∧ k = upperU w

/-- HSModel from src/hs_model.rs: a ham bag and a spam bag. -/
structure HSModel where
  ham_bow : BagOfWords
  spam_bow : BagOfWords

/-- HSModel::new: the empty model. -/
def HSModel.new : HSModel := ⟨BagOfWords.new, BagOfWords.new⟩

/-- HSModel::add_spam_bow: combine the given bag into the spam bag. -/
def HSModel.add_spam_bow (m : HSModel) (spam_bow : BagOfWords) : HSModel :=
  { m with spam_bow := m.spam_bow.combine spam_bow }

/-- HSModel::add_ham_bow: combine the given bag into the ham bag. -/
def HSModel.add_ham_bow (m : HSModel) (ham_bow : BagOfWords) : HSModel :=
  { m with ham_bow := m.ham_bow.combine ham_bow }

/-- HSModel::from_bows: build a model from a ham bag and a spam bag through
the builder calls. -/
def HSModel.from_bows (ham_bow spam_bow : BagOfWords) : HSModel :=
  (HSModel.new.add_ham_bow ham_bow).add_spam_bow spam_bow

/-- The token stream of text_spam_probability: the text is uppercased, then
segmented, and segments that are empty after trimming are discarded. -/
def hs_tokens (segW : String → List String) (upperU : String → String)
    (trimW : String → String) (text : String) : List String :=
  (segW (upperU text)).filter (fun s => !((trimW s).isEmpty))

/-- The filter_map closure of text_spam_probability: when both the spam and
the ham lookup succeed, the token contributes the log-odds term built from
p equal to spam_freq divided by spam_freq plus ham_freq; otherwise the token
contributes nothing. -/
noncomputable def token_score (segW : String → List String)
    (upperU : String → String) (trimW : String → String)
    (m : HSModel) (word : String) : Option ℝ :=
  match BagOfWords.word_frequency segW upperU trimW m.spam_bow word,
        BagOfWords.word_frequency segW upperU trimW m.ham_bow word with
  | some spam_freq, some ham_freq =>
      let p : ℚ := spam_freq / (spam_freq + ham_freq)
      some (Real.log (1 - (p : ℝ)) - Real.log (p : ℝ))
  | _, _ => none

/-- The running sum n of text_spam_probability. -/
noncomputable def log_odds_sum (segW : String → List String)
    (upperU : String → String) (trimW : String → String)
    (m : HSModel) (text : String) : ℝ :=
  ((hs_tokens segW upperU trimW text).filterMap
    (token_score segW upperU trimW m)).sum

/-- HSModel::text_spam_probability: one over one plus e to the n. -/
noncomputable def HSModel.text_spam_probability (segW : String → List String)
    (upperU : String → String) (trimW : String → String)
    (m : HSModel) (text : String) : ℝ :=
  1 / (1 + Real.exp (log_odds_sum segW upperU trimW m text))

/-- A token matches when both the spam map and the ham map lookups succeed. -/
def matched (segW : String → List String) (upperU : String → String)
    (trimW : String → String) (m : HSModel) (word : String) : Bool :=
  (BagOfWords.word_frequency segW upperU trimW m.spam_bow word).isSome &&
  (BagOfWords.word_frequency segW upperU trimW m.ham_bow word).isSome

/-- Spec side log-odds term of a matched token, following section 4.2 of the
spec: the local spam fraction p is spam_freq over spam_freq plus ham_freq
and the term is ln of one minus p, minus ln of p.  Unmatched tokens never
reach this definition. -/
noncomputable def spec_log_odds_term (segW : String → List String)
    (upperU : String → String) (trimW : String → String)
    (m : HSModel) (word : String) : ℝ :=
  match BagOfWords.word_frequency segW upperU trimW m.spam_bow word,
        BagOfWords.word_frequency segW upperU trimW m.ham_bow word with
  | some spam_freq, some ham_freq =>
      Real.log (1 - ((spam_freq / (spam_freq + ham_freq) : ℚ) : ℝ)) -
        Real.log ((spam_freq / (spam_freq + ham_freq) : ℚ) : ℝ)
  | _, _ => 0

/-- Spec side scoring function, written from the words of the spec: sum the
log-odds terms of exactly the matched tokens into n and return the logistic
transform one over one plus e to the n. -/
noncomputable def spec_text_spam_probability (segW : String → List String)
    (upperU : String → String) (trimW : String → String)
    (m : HSModel) (text : String) : ℝ :=
  1 / (1 + Real.exp
    ((((hs_tokens segW upperU trimW text).filter
        (fun w => matched segW upperU trimW m w)).map
      (spec_log_odds_term segW upperU trimW m)).sum))

/-- An IEEE style extended value: a f64 is a finite real, an infinity, or a
non-numeric value. -/
inductive RFloat where
  | finite (x : ℝ) : RFloat
  | posInf : RFloat
  | negInf : RFloat
  | nan : RFloat

/-- The natural logarithm on extended values, following the IEEE semantics
of f64 ln: ln of zero is negative infinity, ln of a negative number is not a
number, ln of positive infinity is positive infinity. -/
noncomputable def fln : RFloat → RFloat
  | RFloat.finite x =>
      if x < 0 then RFloat.nan
      else if x = 0 then RFloat.negInf
      else RFloat.finite (Real.log x)
  | RFloat.posInf => RFloat.posInf
  | RFloat.negInf => RFloat.nan
  | RFloat.nan => RFloat.nan

/-- Subtraction on extended values with the IEEE semantics of f64:
subtracting infinities of the same sign is the only way two non normal
operands produce a non-numeric result. -/
def fsub : RFloat → RFloat → RFloat
  | RFloat.nan, _ => RFloat.nan
  | _, RFloat.nan => RFloat.nan
  | RFloat.finite x, RFloat.finite y => RFloat.finite (x - y)
  | RFloat.finite _, RFloat.posInf => RFloat.negInf
  | RFloat.finite _, RFloat.negInf => RFloat.posInf
  | RFloat.posInf, RFloat.finite _ => RFloat.posInf
  | RFloat.posInf, RFloat.negInf => RFloat.posInf
  | RFloat.posInf, RFloat.posInf => RFloat.nan
  | RFloat.negInf, RFloat.finite _ => RFloat.negInf
  | RFloat.negInf, RFloat.posInf => RFloat.negInf
  | RFloat.negInf, RFloat.negInf => RFloat.nan

/-- The per token log-odds expression of text_spam_probability evaluated
with the IEEE extended value semantics of f64: ln of one minus p, minus
ln of p. -/
noncomputable def log_odds_term_f (p : ℝ) : RFloat :=
  fsub (fln (RFloat.finite (1 - p))) (fln (RFloat.finite p))

/-- Concrete executable word segmentation used by witnesses: split a
character list at spaces. -/
def splitWords : List Char → List Char → List String
  | [], [] => []
  | [], acc => [String.mk acc.reverse]
  | c :: rest, acc =>
      if c = ' ' then
        (if acc.isEmpty then splitWords rest []
         else String.mk acc.reverse :: splitWords rest [])
      else splitWords rest (c :: acc)

/-- Concrete segmentation instance for witnesses; on space separated ASCII
letter words it agrees with the Unicode word boundary rule. -/
def segC (s : String) : List String := splitWords s.data []

/-- Concrete uppercasing instance for witnesses. -/
def upperC (s : String) : String := String.mk (s.data.map Char.toUpper)

/-- Concrete trimming instance for witnesses: drop leading and trailing
spaces. -/
def trimC (s : String) : String :=
  String.mk (((s.data.dropWhile (fun c => c == ' ')).reverse.dropWhile
    (fun c => c == ' ')).reverse)

/-- Concrete ham bag for witnesses. -/
def bowHam0 : BagOfWords := ⟨[("SPAM", 1), ("HAM", 1)]⟩

/-- Concrete spam bag for witnesses. -/
def bowSpam0 : BagOfWords := ⟨[("SPAM", 4), ("HAM", 1)]⟩

/-- Concrete model for witnesses. -/
def model0 : HSModel := ⟨bowHam0, bowSpam0⟩

/-- Bag with a present key of count zero and hence total count zero; such a
value is constructible in the source because the field bow is public. -/
def bowZeroTotal : BagOfWords := ⟨[("A", 0)]⟩

/-- Concrete spam bag for the degeneracy witness. -/
def bowSpamA : BagOfWords := ⟨[("A", 1)]⟩

/-- Concrete ham bag for the degeneracy witness: the key A is present with
count zero, so its frequency is zero while the total count is positive. -/
def bowHamAB : BagOfWords := ⟨[("A", 0), ("B", 1)]⟩

/-- Concrete bag for the reduction witness. -/
def bowB1 : BagOfWords := ⟨[("X", 1), ("Y", 2)]⟩

/-- Concrete bag for the reduction witness. -/
def bowB2 : BagOfWords := ⟨[("Y", 3), ("Z", 4)]⟩

/-- Concrete reduction tree whose leaves are bowB2 then bowB1, in the order
opposite to the sequential list of the reduction witness. -/
def treeC : BowTree :=
  BowTree.node (BowTree.leaf bowB2) (BowTree.node BowTree.empty (BowTree.leaf bowB1))

/-- Concrete bag with two distinct keys for the lookup contract witness. -/
def bowHalf : BagOfWords := ⟨[("A", 1), ("B", 1)]⟩

/-! Infrastructure lemmas about the association list model. -/

theorem addOpt_none_left (x : Option Count) : addOpt none x = x := by
  cases x <;> rfl

theorem addOpt_none_right (x : Option Count) : addOpt x none = x := by
  cases x <;> rfl

theorem addOpt_comm (x y : Option Count) : addOpt x y = addOpt y x := by
  cases x <;> cases y <;> simp [addOpt, Nat.add_comm]

theorem addOpt_assoc (x y z : Option Count) :
    addOpt (addOpt x y) z = addOpt x (addOpt y z) := by
  cases x <;> cases y <;> cases z <;> simp [addOpt, Nat.add_assoc]

theorem find_upsert (l : List (String × Count)) (k : String) (v : Count)
    (k' : String) :
    find_count (upsert l k v) k' =
      if k' = k then addOpt (find_count l k') (some v) else find_count l k' := by
  induction l with
  | nil =>
      by_cases h : k' = k
      · subst h
        simp [upsert, find_count, addOpt]
      · simp [upsert, find_count, h, Ne.symm h]
  | cons p t ih =>
      obtain ⟨k'', v''⟩ := p
      by_cases h1 : k'' = k
      · subst h1
        by_cases h2 : k' = k''
        · subst h2
          simp [upsert, find_count, addOpt]
        · simp [upsert, find_count, h2, Ne.symm h2]
      · by_cases h2 : k'' = k'
        · subst h2
          simp [upsert, find_count, h1]
        · simp [upsert, find_count, h1, h2, ih]

theorem find_count_eq_none (l : List (String × Count)) (k : String) :
    find_count l k = none ↔ k ∉ l.map Prod.fst := by
  induction l with
  | nil => simp [find_count]
  | cons p t ih =>
      obtain ⟨k', v⟩ := p
      by_cases h : k' = k
      · subst h
        simp [find_count]
      · simp [find_count, h, ih, Ne.symm h]

theorem find_count_some_mem (l : List (String × Count)) (k : String)
    (v : Count) (h : find_count l k = some v) : (k, v) ∈ l := by
  induction l with
  | nil => simp [find_count] at h
  | cons p t ih =>
      obtain ⟨k', v'⟩ := p
      by_cases hk : k' = k
      · subst hk
        simp [find_count] at h
        subst h
        exact List.mem_cons_self _ _
      · simp [find_count, hk] at h
        exact List.mem_cons_of_mem _ (ih h)

theorem find_count_le_sum (l : List (String × Count)) (k : String)
    (v : Count) (h : find_count l k = some v) : v ≤ (l.map Prod.snd).sum := by
  induction l with
  | nil => simp [find_count] at h
  | cons p t ih =>
      obtain ⟨k', v'⟩ := p
      by_cases hk : k' = k
      · subst hk
        simp [find_count] at h
        subst h
        simp [Nat.le_add_right]
      · simp [find_count, hk] at h
        simp
        exact le_trans (ih h) (Nat.le_add_left _ _)

theorem find_combine_list (l : List (String × Count))
    (hl : (l.map Prod.fst).Nodup) :
    ∀ (a : List (String × Count)) (k : String),
      find_count (combine_list a l) k = addOpt (find_count a k) (find_count l k) := by
  induction l with
  | nil =>
      intro a k
      simp [combine_list, find_count, addOpt_none_right]
  | cons p t ih =>
      intro a k
      obtain ⟨k', v'⟩ := p
      simp only [List.map_cons, List.nodup_cons] at hl
      have hstep : combine_list a ((k', v') :: t) = combine_list (upsert a k' v') t := by
        simp [combine_list]
      rw [hstep, ih hl.2, find_upsert]
      by_cases hk : k = k'
      · subst hk
        have ht : find_count t k = none := (find_count_eq_none t k).2 hl.1
        simp [find_count, ht, addOpt_none_right]
      · simp [find_count, hk, Ne.symm hk]

theorem mem_keys_upsert (l : List (String × Count)) (k : String) (v : Count)
    (x : String) :
    x ∈ (upsert l k v).map Prod.fst ↔ x ∈ l.map Prod.fst ∨ x = k := by
  induction l with
  | nil => simp [upsert]
  | cons p t ih =>
      obtain ⟨k', v'⟩ := p
      by_cases h : k' = k
      · subst h
        simp [upsert]
        tauto
      · simp [upsert, h, ih]
        tauto

theorem upsert_nodup (l : List (String × Count)) (k : String) (v : Count)
    (h : (l.map Prod.fst).Nodup) : ((upsert l k v).map Prod.fst).Nodup := by
  induction l with
  | nil => simp [upsert]
  | cons p t ih =>
      obtain ⟨k', v'⟩ := p
      simp only [List.map_cons, List.nodup_cons] at h
      by_cases hk : k' = k
      · subst hk
        have hu : upsert ((k', v') :: t) k' v = (k', v' + v) :: t := by
          simp [upsert]
        rw [hu]
        simp only [List.map_cons, List.nodup_cons]
        exact ⟨h.1, h.2⟩
      · simp only [upsert, if_neg hk, List.map_cons, List.nodup_cons]
        refine ⟨?_, ih h.2⟩
        intro hmem
        rcases (mem_keys_upsert t k v k').1 hmem with hx | hx
        · exact h.1 hx
        · exact hk hx

theorem foldl_upsert_nodup {α : Type} (key : α → String) (val : α → Count) :
    ∀ (l : List α) (a : List (String × Count)),
      (a.map Prod.fst).Nodup →
      (((l.foldl (fun acc x => upsert acc (key x) (val x)) a)).map Prod.fst).Nodup := by
  intro l
  induction l with
  | nil => intro a ha; simpa using ha
  | cons x t ih =>
      intro a ha
      simp only [List.foldl_cons]
      exact ih _ (upsert_nodup a (key x) (val x) ha)

theorem combine_list_nodup (a l : List (String × Count))
    (ha : (a.map Prod.fst).Nodup) :
    ((combine_list a l).map Prod.fst).Nodup :=
  foldl_upsert_nodup Prod.fst Prod.snd l a ha

theorem WF_new : BagOfWords.new.WF := by
  simp [BagOfWords.WF, BagOfWords.new]

theorem WF_combine (a b : BagOfWords) (ha : a.WF) : (a.combine b).WF :=
  combine_list_nodup a.bow b.bow ha

theorem find_combine (a b : BagOfWords) (hb : b.WF) (k : String) :
    (a.combine b).find k = addOpt (a.find k) (b.find k) :=
  find_combine_list b.bow hb a.bow k

theorem find_new (k : String) : BagOfWords.new.find k = none := rfl

theorem mergeAll_nil : mergeAll [] = none := rfl

theorem mergeAll_cons (x : Option Count) (xs : List (Option Count)) :
    mergeAll (x :: xs) = addOpt x (mergeAll xs) := rfl

theorem foldr_addOpt_init (xs : List (Option Count)) (z : Option Count) :
    xs.foldr addOpt z = addOpt (mergeAll xs) z := by
  induction xs with
  | nil => simp [mergeAll, addOpt_none_left]
  | cons x t ih => simp [mergeAll, List.foldr_cons, ih, addOpt_assoc]

theorem mergeAll_append (xs ys : List (Option Count)) :
    mergeAll (xs ++ ys) = addOpt (mergeAll xs) (mergeAll ys) := by
  show (xs ++ ys).foldr addOpt none = addOpt (mergeAll xs) (mergeAll ys)
  rw [List.foldr_append, foldr_addOpt_init]
  rfl

theorem mergeAll_perm (xs ys : List (Option Count)) (h : xs.Perm ys) :
    mergeAll xs = mergeAll ys := by
  induction h with
  | nil => rfl
  | cons x _ ih => simp [mergeAll_cons, ih]
  | swap x y t =>
      simp only [mergeAll_cons, ← addOpt_assoc]
      rw [addOpt_comm y x]
  | trans _ _ ih1 ih2 => exact ih1.trans ih2

theorem find_foldl_combine (bs : List BagOfWords) :
    ∀ (c : BagOfWords), (∀ b ∈ bs, b.WF) → ∀ k,
      (bs.foldl BagOfWords.combine c).find k =
        addOpt (c.find k) (mergeAll (bs.map (fun b => b.find k))) := by
  induction bs with
  | nil =>
      intro c _ k
      simp [mergeAll_nil, addOpt_none_right]
  | cons b t ih =>
      intro c hwf k
      simp only [List.foldl_cons, List.map_cons, mergeAll_cons]
      rw [ih (c.combine b) (fun x hx => hwf x (List.mem_cons_of_mem _ hx)) k,
        find_combine c b (hwf b (List.mem_cons_self _ _)) k, addOpt_assoc]

theorem find_from_iter (bs : List BagOfWords) (hwf : ∀ b ∈ bs, b.WF)
    (k : String) :
    (BagOfWords.from_iter bs).find k = mergeAll (bs.map (fun b => b.find k)) := by
  rw [BagOfWords.from_iter, find_foldl_combine bs BagOfWords.new hwf k,
    find_new, addOpt_none_left]

theorem reduce_tree_WF (t : BowTree) (h : ∀ b ∈ leavesOf t, b.WF) :
    (reduce_tree t).WF := by
  induction t with
  | empty => exact WF_new
  | leaf b => exact h b (by simp [leavesOf])
  | node l r ihl ihr =>
      exact WF_combine _ _ (ihl (fun b hb => h b (by simp [leavesOf, hb])))

theorem find_reduce_tree (t : BowTree) (h : ∀ b ∈ leavesOf t, b.WF)
    (k : String) :
    (reduce_tree t).find k = mergeAll ((leavesOf t).map (fun b => b.find k)) := by
  induction t with
  | empty => simp [reduce_tree, leavesOf, find_new, mergeAll_nil]
  | leaf b =>
      simp [reduce_tree, leavesOf, mergeAll_cons, mergeAll_nil, addOpt_none_right]
  | node l r ihl ihr =>
      have hl : ∀ b ∈ leavesOf l, b.WF := fun b hb => h b (by simp [leavesOf, hb])
      have hr : ∀ b ∈ leavesOf r, b.WF := fun b hb => h b (by simp [leavesOf, hb])
      simp only [reduce_tree, leavesOf, List.map_append, mergeAll_append]
      rw [find_combine _ _ (reduce_tree_WF r hr) k, ihl hl, ihr hr]

/-- C5: merge is commutative: for every pair of frequency maps A and B that
are genuine hash maps, combine of A and B equals combine of B and A key by
key, with equal counts. -/
theorem combine_comm_key_by_key (a b : BagOfWords) (ha : a.WF) (hb : b.WF)
    (k : String) : (a.combine b).find k = (b.combine a).find k := by
  rw [find_combine a b hb k, find_combine b a ha k, addOpt_comm]

/-- C5 witness: commutativity applied to the two concrete bags at the shared
key. -/
theorem combine_comm_key_by_key_witness :
    (bowB1.combine bowB2).find "Y" = (bowB2.combine bowB1).find "Y" :=
  combine_comm_key_by_key bowB1 bowB2
    (by unfold BagOfWords.WF; decide) (by unfold BagOfWords.WF; decide) "Y"

/-- C6: merge is associative and the empty map is its identity: for all
frequency maps A, B, C that are genuine hash maps and every key, combining
A and B first and then C gives the same count as combining B and C first,
and combining A with the empty map gives A back. -/
theorem combine_assoc_and_identity (a b c : BagOfWords) (ha : a.WF)
    (hb : b.WF) (hc : c.WF) (k : String) :
    ((a.combine b).combine c).find k = (a.combine (b.combine c)).find k ∧
    (a.combine BagOfWords.new).find k = a.find k := by
  constructor
  · rw [find_combine _ c hc, find_combine a b hb,
      find_combine a _ (WF_combine b c hb), find_combine b c hc, addOpt_assoc]
  · rw [find_combine a BagOfWords.new WF_new, find_new, addOpt_none_right]

/-- C6 witness: associativity and identity applied to three concrete bags
at a shared key. -/
theorem combine_assoc_and_identity_witness :
    ((bowB1.combine bowB2).combine bowHalf).find "Y" =
      (bowB1.combine (bowB2.combine bowHalf)).find "Y" ∧
    (bowB1.combine BagOfWords.new).find "Y" = bowB1.find "Y" :=
  combine_assoc_and_identity bowB1 bowB2 bowHalf
    (by unfold BagOfWords.WF; decide) (by unfold BagOfWords.WF; decide)
    (by unfold BagOfWords.WF; decide) "Y"

/-- C7: a tree shaped pairwise reduction with the empty map as unit, over
any partition and order of the input bags, produces the same frequency map,
key by key, as the sequential left fold of the FromIterator instance over
those bags. -/
theorem parallel_reduce_eq_sequential (t : BowTree) (bs : List BagOfWords)
    (hperm : (leavesOf t).Perm bs) (hwf : ∀ b ∈ bs, b.WF) (k : String) :
    (reduce_tree t).find k = (BagOfWords.from_iter bs).find k := by
  have hwl : ∀ b ∈ leavesOf t, b.WF := fun b hb => hwf b (hperm.subset hb)
  rw [find_reduce_tree t hwl k, find_from_iter bs hwf k]
  exact mergeAll_perm _ _ (hperm.map _)

/-- C7 witness: the concrete tree reduces bowB2 and bowB1 in the order
opposite to the sequential list, with an identity leaf inserted, and the
results agree at the shared key. -/
theorem parallel_reduce_eq_sequential_witness :
    (reduce_tree treeC).find "Y" =
      (BagOfWords.from_iter [bowB1, bowB2]).find "Y" :=
  parallel_reduce_eq_sequential treeC [bowB1, bowB2]
    (List.Perm.swap bowB1 bowB2 [])
    (by
      intro b hb
      simp only [List.mem_cons, List.not_mem_nil, or_false] at hb
      rcases hb with h | h <;> subst h <;> unfold BagOfWords.WF <;> decide)
    "Y"

/-- C10: add_spam_bow leaves the ham map unchanged and add_ham_bow leaves
the spam map unchanged, and from_bows yields a model whose ham map equals
the given ham map and whose spam map equals the given spam map, key by
key. -/
theorem model_frame_conditions (m : HSModel) (b ham spam : BagOfWords)
    (hham : ham.WF) (hspam : spam.WF) (k : String) :
    (m.add_spam_bow b).ham_bow = m.ham_bow ∧
    (m.add_ham_bow b).spam_bow = m.spam_bow ∧
    (HSModel.from_bows ham spam).ham_bow.find k = ham.find k ∧
    (HSModel.from_bows ham spam).spam_bow.find k = spam.find k := by
  refine ⟨rfl, rfl, ?_, ?_⟩
  · show (BagOfWords.new.combine ham).find k = ham.find k
    rw [find_combine BagOfWords.new ham hham k, find_new, addOpt_none_left]
  · show (BagOfWords.new.combine spam).find k = spam.find k
    rw [find_combine BagOfWords.new spam hspam k, find_new, addOpt_none_left]

/-- C10 witness: the frame conditions applied to the concrete model and
bags at a concrete key. -/
theorem model_frame_conditions_witness :
    (model0.add_spam_bow bowHalf).ham_bow = model0.ham_bow ∧
    (model0.add_ham_bow bowHalf).spam_bow = model0.spam_bow ∧
    (HSModel.from_bows bowHam0 bowSpam0).ham_bow.find "SPAM" = bowHam0.find "SPAM" ∧
    (HSModel.from_bows bowHam0 bowSpam0).spam_bow.find "SPAM" = bowSpam0.find "SPAM" :=
  model_frame_conditions model0 bowHalf bowHam0 bowSpam0
    (by unfold BagOfWords.WF; decide) (by unfold BagOfWords.WF; decide) "SPAM"

theorem word_frequency_nonneg (segW : String → List String)
    (upperU : String → String) (trimW : String → String)
    (b : BagOfWords) (word : String) (q : ℚ)
    (h : BagOfWords.word_frequency segW upperU trimW b word = some q) :
    0 ≤ q := by
  unfold BagOfWords.word_frequency at h
  split at h
  · rename_i w heq
    rcases hf : find_count b.bow (upperU w) with _ | v
    · rw [hf] at h
      simp at h
    · rw [hf] at h
      simp only [Option.map_some'] at h
      have hq : ((v : ℚ) / (BagOfWords.total_word_count b : ℚ)) = q :=
        Option.some.inj h
      rw [← hq]
      exact div_nonneg (Nat.cast_nonneg v) (Nat.cast_nonneg _)
  · simp at h

/-- C8 counterexample: the claim states that word_frequency returns None
when the total count is zero.  On the bag holding the key A with count zero,
a value the source can build because the field bow is public, the input is a
single word segment, its uppercased form is present, and the total count is
zero, yet word_frequency succeeds: the source divides by the zero total
instead of returning None. -/
theorem word_frequency_zero_total_counterexample :
    BagOfWords.total_word_count bowZeroTotal = 0 ∧
    (segC "a").filter (fun s => !((trimC s).isEmpty)) = ["a"] ∧
    find_count bowZeroTotal.bow (upperC "a") = some 0 ∧
    BagOfWords.word_frequency segC upperC trimC bowZeroTotal "a" ≠ none := by
  refine ⟨by decide, by decide, by decide, ?_⟩
  decide

/-- C8 amended: word_frequency returns None exactly when the input is not a
single word segment after segmentation and trimming or the uppercased token
is absent from the map; on success it returns the count of the token divided
by the total count, the input having been uppercased the same way as at
construction before lookup, and when the total count is positive this value
lies in the closed unit interval.  The original condition that a zero total
count also yields None is dropped: a present key with zero total makes the
lookup succeed with a division by zero. -/
theorem word_frequency_contract (segW : String → List String)
    (upperU : String → String) (trimW : String → String)
    (b : BagOfWords) (word : String) :
    (((segW word).filter (fun s => !((trimW s).isEmpty))).length ≠ 1 →
      BagOfWords.word_frequency segW upperU trimW b word = none) ∧
    (∀ w, (segW word).filter (fun s => !((trimW s).isEmpty)) = [w] →
      (find_count b.bow (upperU w) = none →
        BagOfWords.word_frequency segW upperU trimW b word = none) ∧
      (∀ v, find_count b.bow (upperU w) = some v →
        BagOfWords.word_frequency segW upperU trimW b word =
          some ((v : ℚ) / (BagOfWords.total_word_count b : ℚ)) ∧
        (0 < BagOfWords.total_word_count b →
          0 ≤ (v : ℚ) / (BagOfWords.total_word_count b : ℚ) ∧
          (v : ℚ) / (BagOfWords.total_word_count b : ℚ) ≤ 1))) := by
  constructor
  · intro hlen
    unfold BagOfWords.word_frequency
    rcases hl : (segW word).filter (fun s => !((trimW s).isEmpty)) with _ | ⟨w, t⟩
    · simp
    · rcases t with _ | ⟨x, t2⟩
      · rw [hl] at hlen
        simp at hlen
      · simp
  · intro w hw
    constructor
    · intro hfind
      unfold BagOfWords.word_frequency
      rw [hw]
      simp [hfind]
    · intro v hfind
      refine ⟨?_, ?_⟩
      · unfold BagOfWords.word_frequency
        rw [hw]
        simp [hfind]
      · intro hpos
        have hv : v ≤ BagOfWords.total_word_count b :=
          find_count_le_sum b.bow (upperU w) v hfind
        constructor
        · positivity
        · rw [div_le_one (by exact_mod_cast hpos)]
          exact_mod_cast hv

/-- C8 witness: the amended contract applied to a concrete bag with two
keys of count one and the input a, whose uppercased form A is present with
count one out of a total of two. -/
theorem word_frequency_contract_witness :
    BagOfWords.word_frequency segC upperC trimC bowHalf "a" =
      some ((1 : ℚ) / ((BagOfWords.total_word_count bowHalf : ℚ))) ∧
    0 ≤ ((1 : ℚ) / ((BagOfWords.total_word_count bowHalf : ℚ))) ∧
    ((1 : ℚ) / ((BagOfWords.total_word_count bowHalf : ℚ))) ≤ 1 := by
  have h := ((word_frequency_contract segC upperC trimC bowHalf "a").2 "a"
    (by decide)).2 1 (by decide)
  exact ⟨h.1, (h.2 (by decide)).1, (h.2 (by decide)).2⟩

theorem entries_valid_insert_words (upperU : String → String)
    (l0 : List String) :
    ∀ (l : List String) (acc : List (String × Count)),
      (∀ w ∈ l, w ∈ l0) →
      (∀ k v, find_count acc k = some v → 1 ≤ v ∧ ∃ w ∈ l0, k = upperU w) →
      ∀ k v, find_count (insert_words upperU l acc) k = some v →
        1 ≤ v ∧ ∃ w ∈ l0, k = upperU w := by
  intro l
  induction l with
  | nil =>
      intro acc _ hacc k v h
      exact hacc k v h
  | cons w t ih =>
      intro acc hsub hacc k v h
      have hstep : insert_words upperU (w :: t) acc =
          insert_words upperU t (upsert acc (upperU w) 1) := by
        simp [insert_words]
      rw [hstep] at h
      refine ih (upsert acc (upperU w) 1)
        (fun x hx => hsub x (List.mem_cons_of_mem _ hx)) ?_ k v h
      intro k' v' h'
      rw [find_upsert] at h'
      by_cases hk : k' = upperU w
      · rw [if_pos hk] at h'
        rcases hfa : find_count acc k' with _ | u
        · rw [hfa] at h'
          simp [addOpt] at h'
          subst h'
          exact ⟨le_refl 1, w, hsub w (List.mem_cons_self _ _), hk⟩
        · rw [hfa] at h'
          simp [addOpt] at h'
          subst h'
          exact ⟨Nat.le_add_left 1 u, w, hsub w (List.mem_cons_self _ _), hk⟩
      · rw [if_neg hk] at h'
        exact hacc k' v' h'

theorem entries_valid_of_pairs (upperU : String → String)
    (trimW : String → String) (b : BagOfWords)
    (h : ∀ p ∈ b.bow, 1 ≤ p.2 ∧ ∃ w, (trimW w).isEmpty = false ∧ p.1 = upperU w) :
    entries_valid upperU trimW b := by
  intro k v hf
  exact h (k, v) (find_count_some_mem b.bow k v hf)

/-- C9: the frequency map invariant is preserved by every constructor and
operation: the empty map satisfies it vacuously, every key of a map built
from text has count at least one and is the uppercased form of one of the
non whitespace word segments of that text, and combining two well formed
maps that satisfy the invariant yields a map that satisfies it; in
particular no key is ever stored with count zero. -/
theorem bow_invariant_preserved (segW : String → List String)
    (upperU : String → String) (trimW : String → String) (s : String)
    (a b : BagOfWords) (hwa : a.WF) (hwb : b.WF)
    (ha : entries_valid upperU trimW a) (hb : entries_valid upperU trimW b) :
    entries_valid upperU trimW BagOfWords.new ∧
    (∀ k v, (BagOfWords.from_text segW upperU trimW s).find k = some v →
      1 ≤ v ∧ ∃ w ∈ (segW s).filter (fun x => !((trimW x).isEmpty)), k = upperU w) ∧
    entries_valid upperU trimW (a.combine b) := by
  refine ⟨?_, ?_, ?_⟩
  · intro k v h
    simp [BagOfWords.find, BagOfWords.new, find_count] at h
  · intro k v h
    exact entries_valid_insert_words upperU
      ((segW s).filter (fun x => !((trimW x).isEmpty)))
      ((segW s).filter (fun x => !((trimW x).isEmpty))) []
      (fun w hw => hw)
      (by intro k' v' h'; simp [find_count] at h') k v h
  · intro k v h
    rw [show (a.combine b).find k = addOpt (a.find k) (b.find k) from
      find_combine a b hwb k] at h
    rcases hfa : a.find k with _ | u <;> rcases hfb : b.find k with _ | u' <;>
      rw [hfa, hfb] at h <;> simp [addOpt] at h
    · subst h
      exact hb k u' hfb
    · subst h
      exact ha k u hfa
    · obtain ⟨h1, h2⟩ := (ha k u hfa)
      obtain ⟨h3, h4⟩ := (hb k u' hfb)
      subst h
      exact ⟨le_trans h1 (Nat.le_add_right u u'), h2⟩

/-- C9 witness: invariant preservation applied to two concrete well formed
bags whose keys are uppercased non whitespace segments with positive
counts. -/
theorem bow_invariant_preserved_witness :
    entries_valid upperC trimC (bowSpamA.combine bowHalf) :=
  (bow_invariant_preserved segC upperC trimC "hi" bowSpamA bowHalf
    (by unfold BagOfWords.WF; decide) (by unfold BagOfWords.WF; decide)
    (entries_valid_of_pairs upperC trimC bowSpamA (by
      intro p hp
      simp only [bowSpamA, List.mem_singleton] at hp
      subst hp
      exact ⟨by decide, "a", by decide, by decide⟩))
    (entries_valid_of_pairs upperC trimC bowHalf (by
      intro p hp
      simp only [bowHalf, List.mem_cons, List.not_mem_nil, or_false] at hp
      rcases hp with h | h <;> subst h
      · exact ⟨by decide, "a", by decide, by decide⟩
      · exact ⟨by decide, "b", by decide, by decide⟩))).2.2

theorem counts_pos_of_pairs (b : BagOfWords) (h : ∀ p ∈ b.bow, 1 ≤ p.2) :
    counts_pos b :=
  fun k v hf => h (k, v) (find_count_some_mem b.bow k v hf)

/-- C1: for every model whose two maps satisfy the count positivity
invariant of reachable training data, and for every input text,
text_spam_probability returns a value in the closed unit interval; scoring
is a total function into the reals, so no lookup miss and no numeric
degeneracy reaches the caller. -/
theorem text_spam_probability_in_unit_interval (segW : String → List String)
    (upperU : String → String) (trimW : String → String)
    (m : HSModel) (text : String)
    (hham : counts_pos m.ham_bow) (hspam : counts_pos m.spam_bow) :
    0 ≤ HSModel.text_spam_probability segW upperU trimW m text ∧
    HSModel.text_spam_probability segW upperU trimW m text ≤ 1 := by
  unfold HSModel.text_spam_probability
  have hexp : 0 < Real.exp (log_odds_sum segW upperU trimW m text) :=
    Real.exp_pos _
  constructor
  · positivity
  · rw [div_le_one (by positivity)]
    linarith

/-- C1 witness: the bound applied to the concrete model, whose maps have
all counts positive, on a concrete text. -/
theorem text_spam_probability_in_unit_interval_witness :
    0 ≤ HSModel.text_spam_probability segC upperC trimC model0 "spam" ∧
    HSModel.text_spam_probability segC upperC trimC model0 "spam" ≤ 1 :=
  text_spam_probability_in_unit_interval segC upperC trimC model0 "spam"
    (counts_pos_of_pairs model0.ham_bow (by decide))
    (counts_pos_of_pairs model0.spam_bow (by decide))

theorem sum_filterMap_eq_sum_filter_map (segW : String → List String)
    (upperU : String → String) (trimW : String → String) (m : HSModel) :
    ∀ l : List String,
      ((l.filterMap (token_score segW upperU trimW m)).sum : ℝ) =
      (((l.filter (fun w => matched segW upperU trimW m w)).map
        (spec_log_odds_term segW upperU trimW m)).sum) := by
  intro l
  induction l with
  | nil => simp
  | cons w t ih =>
      rcases hsf : BagOfWords.word_frequency segW upperU trimW m.spam_bow w
          with _ | sf <;>
        rcases hhf : BagOfWords.word_frequency segW upperU trimW m.ham_bow w
          with _ | hf <;>
        simp [List.filterMap_cons, List.filter_cons, token_score, matched,
          spec_log_odds_term, hsf, hhf, ih]

/-- C2: text_spam_probability computes its result by the log-odds
algorithm of the spec: every token of the tokenized text for which both
word_frequency lookups succeed contributes exactly ln of one minus p minus
ln of p with p the local spam fraction, tokens with a failed lookup are
skipped and contribute nothing, and the result is the logistic transform of
the accumulated sum; formally the source function equals the function
written from the words of the spec. -/
theorem text_spam_probability_eq_spec (segW : String → List String)
    (upperU : String → String) (trimW : String → String)
    (m : HSModel) (text : String) :
    HSModel.text_spam_probability segW upperU trimW m text =
    spec_text_spam_probability segW upperU trimW m text := by
  unfold HSModel.text_spam_probability spec_text_spam_probability log_odds_sum
  rw [sum_filterMap_eq_sum_filter_map]

/-- C3: when every token of the text fails to match, because at least one
of the two lookups misses for each token or because the text is empty, the
running sum is zero and text_spam_probability returns exactly one half. -/
theorem text_spam_probability_no_match_half (segW : String → List String)
    (upperU : String → String) (trimW : String → String)
    (m : HSModel) (text : String)
    (h : ∀ w ∈ hs_tokens segW upperU trimW text,
      BagOfWords.word_frequency segW upperU trimW m.spam_bow w = none ∨
      BagOfWords.word_frequency segW upperU trimW m.ham_bow w = none) :
    HSModel.text_spam_probability segW upperU trimW m text = 1 / 2 := by
  have hn : log_odds_sum segW upperU trimW m text = 0 := by
    unfold log_odds_sum
    have hnil : (hs_tokens segW upperU trimW text).filterMap
        (token_score segW upperU trimW m) = [] := by
      rw [List.filterMap_eq_nil]
      intro w hw
      rcases h w hw with h' | h'
      · simp [token_score, h']
      · rcases hsf : BagOfWords.word_frequency segW upperU trimW m.spam_bow w
            with _ | sf <;>
          simp [token_score, hsf, h']
    rw [hnil]
    simp
  unfold HSModel.text_spam_probability
  rw [hn, Real.exp_zero]
  norm_num

/-- C3 witness: the empty model matches no token, so the concrete text
scores exactly one half. -/
theorem text_spam_probability_no_match_half_witness :
    HSModel.text_spam_probability segC upperC trimC HSModel.new "hello" = 1 / 2 :=
  text_spam_probability_no_match_half segC upperC trimC HSModel.new "hello"
    (by decide)

/-- C4: for every token of a scored text on which both lookups succeed,
consider the fraction p computed by the source.  Evaluated with the IEEE
extended value semantics of f64, the per token log-odds expression is never
a non-numeric value: when p is exactly zero the contribution is positive
infinity, which drives the composite probability to the extreme zero, when
p is exactly one it is negative infinity, which drives the composite
probability to the extreme one, and otherwise it is the finite real used by
the idealised model; so no not-a-number value is ever added to the running
sum. -/
theorem log_odds_term_saturates (segW : String → List String)
    (upperU : String → String) (trimW : String → String)
    (spam ham : BagOfWords) (w : String) (s h : ℚ)
    (hs : BagOfWords.word_frequency segW upperU trimW spam w = some s)
    (hh : BagOfWords.word_frequency segW upperU trimW ham w = some h)
    (hsum : 0 < s + h) :
    (s / (s + h) = 0 →
      log_odds_term_f (((s / (s + h) : ℚ) : ℝ)) = RFloat.posInf) ∧
    (s / (s + h) = 1 →
      log_odds_term_f (((s / (s + h) : ℚ) : ℝ)) = RFloat.negInf) ∧
    (s / (s + h) ≠ 0 → s / (s + h) ≠ 1 →
      log_odds_term_f (((s / (s + h) : ℚ) : ℝ)) =
        RFloat.finite (Real.log (1 - ((s / (s + h) : ℚ) : ℝ)) -
          Real.log ((s / (s + h) : ℚ) : ℝ))) ∧
    log_odds_term_f (((s / (s + h) : ℚ) : ℝ)) ≠ RFloat.nan := by
  have hs0 : 0 ≤ s := word_frequency_nonneg segW upperU trimW spam w s hs
  have hp0 : 0 ≤ s / (s + h) := div_nonneg hs0 (le_of_lt hsum)
  have hp1 : s / (s + h) ≤ 1 := by
    rw [div_le_one hsum]
    have hh0 : 0 ≤ h := word_frequency_nonneg segW upperU trimW ham w h hh
    linarith
  have hA : s / (s + h) = 0 →
      log_odds_term_f (((s / (s + h) : ℚ) : ℝ)) = RFloat.posInf := by
    intro h0
    rw [h0]
    norm_num [log_odds_term_f, fln, fsub]
  have hB : s / (s + h) = 1 →
      log_odds_term_f (((s / (s + h) : ℚ) : ℝ)) = RFloat.negInf := by
    intro h1
    rw [h1]
    norm_num [log_odds_term_f, fln, fsub]
  have hC : s / (s + h) ≠ 0 → s / (s + h) ≠ 1 →
      log_odds_term_f (((s / (s + h) : ℚ) : ℝ)) =
        RFloat.finite (Real.log (1 - ((s / (s + h) : ℚ) : ℝ)) -
          Real.log ((s / (s + h) : ℚ) : ℝ)) := by
    intro hne0 hne1
    have hP0 : (0 : ℝ) < ((s / (s + h) : ℚ) : ℝ) := by
      exact_mod_cast lt_of_le_of_ne hp0 (Ne.symm hne0)
    have hP1 : ((s / (s + h) : ℚ) : ℝ) < 1 := by
      exact_mod_cast lt_of_le_of_ne hp1 hne1
    have hgap : (0 : ℝ) < 1 - ((s / (s + h) : ℚ) : ℝ) := by linarith
    unfold log_odds_term_f
    simp only [fln]
    rw [if_neg (not_lt.2 hgap.le), if_neg (ne_of_gt hgap),
      if_neg (not_lt.2 hP0.le), if_neg (ne_of_gt hP0)]
    simp [fsub]
  refine ⟨hA, hB, hC, ?_⟩
  rcases eq_or_ne (s / (s + h)) 0 with h0 | h0
  · rw [hA h0]
    simp
  · rcases eq_or_ne (s / (s + h)) 1 with h1 | h1
    · rw [hB h1]
      simp
    · rw [hC h0 h1]
      simp

theorem word_frequency_eval (segW : String → List String)
    (upperU : String → String) (trimW : String → String)
    (b : BagOfWords) (word w : String) (v : Count)
    (h1 : (segW word).filter (fun s => !((trimW s).isEmpty)) = [w])
    (h2 : find_count b.bow (upperU w) = some v) :
    BagOfWords.word_frequency segW upperU trimW b word =
      some ((v : ℚ) / (BagOfWords.total_word_count b : ℚ)) := by
  unfold BagOfWords.word_frequency
  rw [h1]
  simp [h2]

/-- C4 witness: on the concrete bags the token a has spam frequency one and
ham frequency zero, the fraction is exactly one, and the contribution is
negative infinity, not a non-numeric value. -/
theorem log_odds_term_saturates_witness :
    log_odds_term_f ((((1 : ℚ) / ((1 : ℚ) + (0 : ℚ))) : ℚ) : ℝ) = RFloat.negInf ∧
    log_odds_term_f ((((1 : ℚ) / ((1 : ℚ) + (0 : ℚ))) : ℚ) : ℝ) ≠ RFloat.nan := by
  have hts : BagOfWords.total_word_count bowSpamA = 1 := by decide
  have hth : BagOfWords.total_word_count bowHamAB = 1 := by decide
  have hs0 := word_frequency_eval segC upperC trimC bowSpamA "a" "a" 1
    (by decide) (by decide)
  have hh0 := word_frequency_eval segC upperC trimC bowHamAB "a" "a" 0
    (by decide) (by decide)
  rw [hts] at hs0
  rw [hth] at hh0
  norm_num at hs0 hh0
  have h := log_odds_term_saturates segC upperC trimC bowSpamA bowHamAB "a"
    1 0 hs0 hh0 (by norm_num)
  exact ⟨h.2.1 (by norm_num), h.2.2.2⟩
